import Mathlib

/-!
Shallow embedding of the i2s repository (src/micro.py and src/ps.py) and
verification of the specification claims about it.

Bytes are modelled as natural numbers (values < 256 where it matters),
byte strings as lists of naturals, Python ints as Lean Int/Nat with
explicit reductions mod powers of two, and fallible operations
(struct.unpack / struct.pack raising struct.error, parse errors raising
ValueError) as Option / Except values.
-/

namespace I2S

/-! Byte-string helpers shared by both source files. -/

/-- Python slice b[a:b] on a byte string (non-negative indices only,
    which is all the sources use). -/
def pySlice (l : List Nat) (a b : Nat) : List Nat :=
  (l.drop a).take (b - a)

/-- Value of two little-endian bytes. -/
def le16 (b0 b1 : Nat) : Nat := b0 + 256 * b1

/-- Value of four little-endian bytes. -/
def le32v (b0 b1 b2 b3 : Nat) : Nat :=
  b0 + 256 * b1 + 65536 * b2 + 16777216 * b3

/-- Two's-complement reading of a 16-bit value, as struct.unpack with
    format <h does. -/
def toSigned16 (n : Nat) : Int :=
  if n < 32768 then (n : Int) else (n : Int) - 65536

/-- struct.unpack with format <h on a byte string: exactly two bytes,
    little-endian, signed; anything else raises struct.error (none). -/
def unpackh (bs : List Nat) : Option Int :=
  match bs with
  | [b0, b1] => some (toSigned16 (le16 b0 b1))
  | _ => none

/-- struct.unpack with format <H: exactly two bytes, little-endian,
    unsigned. -/
def unpackH (bs : List Nat) : Option Nat :=
  match bs with
  | [b0, b1] => some (le16 b0 b1)
  | _ => none

/-- struct.unpack with format <I: exactly four bytes, little-endian,
    unsigned. -/
def unpackI (bs : List Nat) : Option Nat :=
  match bs with
  | [b0, b1, b2, b3] => some (le32v b0 b1 b2 b3)
  | _ => none

/-- Little-endian encoding of a 32-bit value as four bytes
    (struct.pack with format <I, on an in-range value). -/
def le32 (n : Nat) : List Nat :=
  [n % 256, n / 256 % 256, n / 65536 % 256, n / 16777216 % 256]

/-- Little-endian encoding of a 16-bit value as two bytes. -/
def le16b (n : Nat) : List Nat := [n % 256, n / 256 % 256]

/-- struct.pack with format <I: range-checks the value
    (struct.error, i.e. none, outside the unsigned 32-bit range). -/
def packI (n : Nat) : Option (List Nat) :=
  if n < 4294967296 then some (le32 n) else none

/-- struct.pack with format <H: range-checks the value. -/
def packHu (n : Nat) : Option (List Nat) :=
  if n < 65536 then some (le16b n) else none

/-- struct.pack with format <h: range-checks a signed 16-bit value and
    encodes it little-endian two's complement. -/
def packh (v : Int) : Option (List Nat) :=
  if -32768 ≤ v ∧ v < 32768 then some (le16b (v % 65536).toNat) else none

end I2S

namespace I2S

/-! Embedding of src/micro.py. -/

/-- The byte string RIFF. -/
def riffId : List Nat := [82, 73, 70, 70]

/-- The byte string WAVE. -/
def waveId : List Nat := [87, 65, 86, 69]

/-- The byte string fmt followed by a space. -/
def fmtId : List Nat := [102, 109, 116, 32]

/-- The byte string data. -/
def dataId : List Nat := [100, 97, 116, 97]

/-- Result record of parse_wav_header (the dict it returns). -/
structure WavInfo where
  format : Nat
  channels : Nat
  sample_rate : Nat
  bits : Nat
deriving DecidableEq, Repr

/-- Errors parse_wav_header can raise: ValueError (the format errors it
    raises itself) or struct.error from a short unpack slice. -/
inductive WavError where
  | formatError (msg : String)
  | structError
deriving DecidableEq, Repr

/-- Chunk-walk loop of parse_wav_header (src/micro.py lines 103-124):
    while pos < len(header) - 8, read the 4-byte chunk id and 4-byte
    little-endian size at pos; on the fmt chunk decode the four format
    fields from its payload, otherwise advance pos by 8 + size.  Falls
    off the loop with the ValueError "No fmt chunk found". -/
def findFmt (header : List Nat) (pos : Nat) : Except WavError WavInfo :=
  if _hpos : pos < header.length - 8 then
    match unpackI (pySlice header (pos + 4) (pos + 8)) with
    | none => .error .structError
    | some chunk_size =>
      if pySlice header pos (pos + 4) = fmtId then
        let fmt_data := pySlice header (pos + 8) (pos + 8 + chunk_size)
        match unpackH (pySlice fmt_data 0 2), unpackH (pySlice fmt_data 2 4),
              unpackI (pySlice fmt_data 4 8), unpackH (pySlice fmt_data 14 16) with
        | some audio_format, some channels, some sample_rate, some bits_per_sample =>
          .ok ⟨audio_format, channels, sample_rate, bits_per_sample⟩
        | _, _, _, _ => .error .structError
      else
        findFmt header (pos + (8 + chunk_size))
  else
    .error (.formatError "No fmt chunk found")
termination_by header.length - pos
decreasing_by omega

/-- Embedding of parse_wav_header (src/micro.py lines 97-124). -/
def parse_wav_header (header : List Nat) : Except WavError WavInfo :=
  if pySlice header 0 4 ≠ riffId ∨ pySlice header 8 12 ≠ waveId then
    .error (.formatError "Not a valid WAV file")
  else
    findFmt header 12

/-- Embedding of I2SSlaveTX.send_sample packing (src/micro.py line 77):
    sample = ((left & 0xFFFF) << 16) | (right & 0xFFFF), on Python
    arbitrary-precision integers. -/
def send_sample (left right : Int) : Int :=
  Int.lor (Int.land left 65535 <<< (16 : Int)) (Int.land right 65535)

/-- Loop of I2SSlaveTX.send_samples on a bytes buffer
    (src/micro.py lines 87-91): for i in range(0, len(samples), 4),
    when i + 3 < len(samples) unpack the signed little-endian left and
    right samples at i and i+2 and push the frame.  The index bound
    guarantees the getD defaults are never used. -/
def send_samples_from (samples : List Nat) (i : Nat) : List (Int × Int) :=
  if _hi : i < samples.length then
    (if i + 3 < samples.length then
      [(toSigned16 (le16 (samples.getD i 0) (samples.getD (i + 1) 0)),
        toSigned16 (le16 (samples.getD (i + 2) 0) (samples.getD (i + 3) 0)))]
     else []) ++ send_samples_from samples (i + 4)
  else []
termination_by samples.length - i
decreasing_by omega

/-- Embedding of I2SSlaveTX.send_samples on a bytes buffer: the list of
    (left, right) frames it passes to send_sample, in order. -/
def send_samples (samples : List Nat) : List (Int × Int) :=
  send_samples_from samples 0

/-- Specification-side splitter: concatenated bytes cut into consecutive
    4-byte groups (2 bytes little-endian signed left, 2 bytes
    little-endian signed right), final incomplete group truncated. -/
def framesOfBytes : List Nat → List (Int × Int)
  | b0 :: b1 :: b2 :: b3 :: rest =>
    (toSigned16 (le16 b0 b1), toSigned16 (le16 b2 b3)) :: framesOfBytes rest
  | _ => []

end I2S

namespace I2S

/-! Claim C1: relation between send_samples and the concatenate-and-split
    frame decomposition. -/

lemma framesOfBytes_short (l : List Nat) (h : l.length < 4) :
    framesOfBytes l = [] := by
  match l, h with
  | [], _ => rfl
  | [_], _ => rfl
  | [_, _], _ => rfl
  | [_, _, _], _ => rfl
  | _ :: _ :: _ :: _ :: _, h => simp at h; omega

lemma send_samples_from_eq (samples : List Nat) (i : Nat) :
    send_samples_from samples i = framesOfBytes (samples.drop i) := by
  rw [send_samples_from]
  by_cases hi : i < samples.length
  · rw [dif_pos hi]
    by_cases h3 : i + 3 < samples.length
    · have e : samples.drop i =
          samples[i] :: samples[i + 1] :: samples[i + 2] :: samples[i + 3] ::
            samples.drop (i + 4) := by
        rw [List.drop_eq_getElem_cons (by omega), List.drop_eq_getElem_cons (by omega),
            List.drop_eq_getElem_cons (by omega), List.drop_eq_getElem_cons (by omega)]
      rw [if_pos h3, e, framesOfBytes, send_samples_from_eq samples (i + 4)]
      rw [List.getD_eq_getElem samples 0 (by omega), List.getD_eq_getElem samples 0 (by omega),
          List.getD_eq_getElem samples 0 (by omega), List.getD_eq_getElem samples 0 (by omega)]
      rfl
    · rw [if_neg h3, send_samples_from_eq samples (i + 4)]
      have h4 : samples.length ≤ i + 4 := by omega
      rw [List.drop_eq_nil_of_le h4, framesOfBytes_short (samples.drop i) (by
        rw [List.length_drop]; omega)]
      rfl
  · rw [dif_neg hi]
    rw [List.drop_eq_nil_of_le (by omega)]
    rfl
termination_by samples.length - i
decreasing_by all_goals omega

lemma send_samples_eq_framesOfBytes (samples : List Nat) :
    send_samples samples = framesOfBytes samples := by
  rw [send_samples, send_samples_from_eq, List.drop_zero]

/-- C1 counterexample: the chunk sequence [1], [0, 2, 0] consists of
    non-empty chunks, yet send_samples pushes no frame at all for it,
    while splitting the concatenation [1, 0, 2, 0] into 4-byte groups
    yields the frame (1, 2).  There is no carry buffer in the code:
    trailing bytes of each chunk are dropped. -/
theorem sample_assembler_no_carry_counterexample :
    (∀ c ∈ [[1], [0, 2, 0]], c ≠ ([] : List Nat)) ∧
    ([[1], [0, 2, 0]].map send_samples).flatten ≠
      framesOfBytes ([[1], [0, 2, 0]] : List (List Nat)).flatten := by
  constructor
  · decide
  · rw [List.map_cons, List.map_cons, List.map_nil,
        send_samples_eq_framesOfBytes, send_samples_eq_framesOfBytes]
    decide

/-- C1 amended: for every sequence of non-empty byte chunks, the frames
    pushed to the fifo are the concatenation over chunks of the frames
    obtained by splitting each chunk individually into 4-byte groups
    (2 bytes little-endian signed left, 2 bytes little-endian signed
    right), truncating that chunk's final incomplete group; trailing
    bytes at a chunk's end are dropped, not carried into the next
    chunk. -/
theorem sample_assembler_per_chunk (chunks : List (List Nat))
    (hne : ∀ c ∈ chunks, c ≠ []) :
    (chunks.map send_samples).flatten = (chunks.map framesOfBytes).flatten := by
  have : chunks.map send_samples = chunks.map framesOfBytes :=
    List.map_congr_left fun c _ => send_samples_eq_framesOfBytes c
  rw [this]

/-- C1 amended claim witness at the chunk sequence [[1, 0, 2, 0]]. -/
theorem sample_assembler_per_chunk_witness :
    (∀ c ∈ [[1, 0, 2, 0]], c ≠ ([] : List Nat)) ∧
    ([[1, 0, 2, 0]].map send_samples).flatten =
      (([[1, 0, 2, 0]] : List (List Nat)).map framesOfBytes).flatten :=
  ⟨by decide, sample_assembler_per_chunk [[1, 0, 2, 0]] (by decide)⟩

end I2S

namespace I2S

/-! Claim C7: characterization of the send_sample bit packing. -/

lemma int_land_zero (x : Int) : Int.land x 0 = 0 := by
  cases x with
  | ofNat m =>
    have h : Int.land (Int.ofNat m) (Int.ofNat 0) = Int.ofNat (m &&& 0) := rfl
    simpa using h
  | negSucc m =>
    have h : Int.land (Int.negSucc m) (Int.ofNat 0) = Int.ofNat (Nat.ldiff 0 m) := rfl
    have h0 : Nat.ldiff 0 m = 0 := by
      rw [Nat.ldiff, Nat.bitwise_zero_left]
      simp
    simpa [h0] using h

/-- Python's bitwise AND of an arbitrary integer with the all-ones mask
    2^n - 1 is reduction mod 2^n, in two's-complement semantics. -/
lemma int_land_two_pow_sub_one : ∀ (n : Nat) (x : Int),
    Int.land x ((2 : Int) ^ n - 1) = x % (2 : Int) ^ n := by
  intro n
  induction n with
  | zero =>
    intro x
    simpa using int_land_zero x
  | succ n ih =>
    intro x
    have hmask : ((2 : Int) ^ (n + 1) - 1) = Int.bit true ((2 : Int) ^ n - 1) := by
      rw [Int.bit_val, pow_succ]
      simp [Bool.cond_true]
      ring
    induction x using Int.bitCasesOn with
    | _ b m =>
      rw [hmask, Int.land_bit, ih m, Bool.and_true, Int.bit_val, Int.bit_val]
      have hK : (0 : Int) < 2 ^ n := by positivity
      have hdm := Int.ediv_add_emod m ((2 : Int) ^ n)
      have hr0 : (0 : Int) ≤ m % 2 ^ n := Int.emod_nonneg m (by positivity)
      have hr1 : m % 2 ^ n < 2 ^ n := Int.emod_lt_of_pos m hK
      have hc : (0 : Int) ≤ cond b 1 0 ∧ (cond b 1 0 : Int) ≤ 1 := by
        cases b <;> simp
      have hsplit : 2 * m + (cond b 1 0 : Int) =
          (2 * (m % 2 ^ n) + cond b 1 0) + (2 : Int) ^ (n + 1) * (m / 2 ^ n) := by
        rw [pow_succ]
        linear_combination (-2 : Int) * hdm
      rw [hsplit, Int.add_mul_emod_self_left]
      have hb0 : (0 : Int) ≤ 2 * (m % 2 ^ n) + cond b 1 0 := by linarith [hc.1]
      have hb1 : 2 * (m % 2 ^ n) + cond b 1 0 < 2 ^ (n + 1) := by
        rw [pow_succ]; linarith [hc.2, hr1]
      exact (Int.emod_eq_of_lt hb0 hb1).symm

lemma nat_mul_lor_eq_add (a b : Nat) (hb : b < 65536) :
    (a * 65536) ||| b = a * 65536 + b := by
  apply Nat.eq_of_testBit_eq
  intro j
  have h655 : (65536 : Nat) = 2 ^ 16 := by norm_num
  rw [Nat.testBit_lor, h655, Nat.mul_comm a (2 ^ 16),
    Nat.testBit_mul_pow_two_add a (show b < 2 ^ 16 by omega) j,
    Nat.mul_comm (2 ^ 16) a, ← Nat.shiftLeft_eq a 16, Nat.testBit_shiftLeft]
  by_cases hj : j < 16
  · simp [hj, Nat.not_le.mpr hj]
  · have hbj : b.testBit j = false :=
      Nat.testBit_lt_two_pow (lt_of_lt_of_le (h655 ▸ hb)
        (Nat.pow_le_pow_right (by norm_num) (by omega)))
    have h16 : 16 ≤ j := Nat.le_of_not_lt hj
    simp [hj, h16, hbj]

lemma send_sample_eq_mod (left right : Int) :
    send_sample left right = (left % 65536) * 65536 + (right % 65536) := by
  have hmask : (65535 : Int) = (2 : Int) ^ 16 - 1 := by norm_num
  have hl : Int.land left 65535 = left % 65536 := by
    rw [hmask, int_land_two_pow_sub_one]; norm_num
  have hr : Int.land right 65535 = right % 65536 := by
    rw [hmask, int_land_two_pow_sub_one]; norm_num
  rw [send_sample, hl, hr]
  have hsh : (left % 65536) <<< (16 : Int) = (left % 65536) * 65536 := by
    have h16 : (16 : Int) = ((16 : Nat) : Int) := by norm_num
    rw [h16, Int.shiftLeft_eq_mul_pow]
    norm_num
  rw [hsh]
  have hl0 : (0 : Int) ≤ left % 65536 := Int.emod_nonneg left (by norm_num)
  have hl1 : left % 65536 < 65536 := Int.emod_lt_of_pos left (by norm_num)
  have hr0 : (0 : Int) ≤ right % 65536 := Int.emod_nonneg right (by norm_num)
  have hr1 : right % 65536 < 65536 := Int.emod_lt_of_pos right (by norm_num)
  obtain ⟨u, hu⟩ := Int.eq_ofNat_of_zero_le hl0
  obtain ⟨v, hv⟩ := Int.eq_ofNat_of_zero_le hr0
  rw [hu, hv]
  have hcast : ((u : Int) * 65536) = ((u * 65536 : Nat) : Int) := by push_cast; ring
  rw [hcast]
  have hlor : Int.lor ((u * 65536 : Nat) : Int) ((v : Nat) : Int) =
      (((u * 65536) ||| v : Nat) : Int) := rfl
  rw [hlor, nat_mul_lor_eq_add u v (by omega)]
  push_cast
  ring

/-- C7: for every pair of signed 16-bit integers, send_sample packs them
    into the unsigned 32-bit word (left mod 2^16) * 2^16 + (right mod
    2^16) — left's two's-complement bits in the high half, right's in the
    low half — and the result lies in [0, 2^32). -/
theorem send_sample_packs (left right : Int)
    (hl0 : -32768 ≤ left) (hl1 : left < 32768)
    (hr0 : -32768 ≤ right) (hr1 : right < 32768) :
    send_sample left right = (left % 65536) * 65536 + (right % 65536) ∧
    0 ≤ send_sample left right ∧ send_sample left right < 4294967296 := by
  have h := send_sample_eq_mod left right
  refine ⟨h, ?_, ?_⟩ <;> rw [h] <;> omega

/-- C7 witness at left = 1, right = -1. -/
theorem send_sample_packs_witness :
    send_sample 1 (-1) = ((1 : Int) % 65536) * 65536 + ((-1 : Int) % 65536) ∧
    0 ≤ send_sample 1 (-1) ∧ send_sample 1 (-1) < 4294967296 :=
  send_sample_packs 1 (-1) (by norm_num) (by norm_num) (by norm_num) (by norm_num)

end I2S

namespace I2S

/-! Claim C3: the sample fifo.  Modelled from the spec: the fifo that
    send_sample pushes into via sm.put is the PIO state machine's
    hardware TX FIFO, whose implementation is not part of this
    repository; SampleFifo is therefore modelled from the specification
    text (bounded, ordered, push blocks while full, pop blocks while
    empty, strict FIFO order).  Blocking that would never complete is
    modelled as the operation being unavailable (none). -/

/-- Modelled from the spec: one operation on the SampleFifo shared
    between the assembler (push) and the bit shifter (pop). -/
inductive FifoOp where
  | push : Int × Int → FifoOp
  | pop : FifoOp
deriving DecidableEq, Repr

/-- Modelled from the spec: effect of one operation on a fifo of
    capacity cap holding buf (oldest first).  Returns the new buffer and
    the popped frame, if any; none models an operation that blocks. -/
def fifoStep (cap : Nat) (buf : List (Int × Int)) :
    FifoOp → Option (List (Int × Int) × Option (Int × Int))
  | .push f => if buf.length < cap then some (buf ++ [f], none) else none
  | .pop =>
    match buf with
    | [] => none
    | f :: rest => some (rest, some f)

/-- Modelled from the spec: run a sequence of fifo operations from a
    starting buffer, collecting the popped frames in order; none when
    some operation blocks. -/
def runFifo (cap : Nat) (buf : List (Int × Int)) :
    List FifoOp → Option (List (Int × Int) × List (Int × Int))
  | [] => some (buf, [])
  | op :: ops =>
    match fifoStep cap buf op with
    | none => none
    | some (buf1, out) =>
      match runFifo cap buf1 ops with
      | none => none
      | some (buff, outs) => some (buff, out.toList ++ outs)

/-- Frames pushed by a sequence of operations, in push order. -/
def pushedFrames : List FifoOp → List (Int × Int)
  | [] => []
  | .push f :: ops => f :: pushedFrames ops
  | .pop :: ops => pushedFrames ops

lemma runFifo_invariant (cap : Nat) :
    ∀ (ops : List FifoOp) (buf buff outs : List (Int × Int)),
      runFifo cap buf ops = some (buff, outs) →
      outs ++ buff = buf ++ pushedFrames ops := by
  intro ops
  induction ops with
  | nil =>
    intro buf buff outs h
    simp [runFifo] at h
    simp [h.1, h.2, pushedFrames]
  | cons op ops ih =>
    intro buf buff outs h
    rw [runFifo] at h
    cases hop : fifoStep cap buf op with
    | none => simp only [hop] at h; exact absurd h (by simp)
    | some p =>
      obtain ⟨buf1, out⟩ := p
      simp only [hop] at h
      cases hrec : runFifo cap buf1 ops with
      | none => simp only [hrec] at h; exact absurd h (by simp)
      | some q =>
        obtain ⟨buff2, outs2⟩ := q
        simp only [hrec] at h
        simp at h
        obtain ⟨hb, ho⟩ := h
        subst hb; subst ho
        have hinv := ih buf1 buff2 outs2 hrec
        match op with
        | .push f =>
          rw [fifoStep] at hop
          by_cases hcap : buf.length < cap
          · rw [if_pos hcap] at hop
            simp at hop
            obtain ⟨h1, h2⟩ := hop
            subst h1; subst h2
            simp [pushedFrames, hinv]
          · rw [if_neg hcap] at hop; exact absurd hop (by simp)
        | .pop =>
          match buf with
          | [] => exact absurd hop (by simp [fifoStep])
          | f :: rest =>
            rw [fifoStep] at hop
            simp at hop
            obtain ⟨h1, h2⟩ := hop
            subst h1; subst h2
            simp [pushedFrames, ← hinv]

lemma runFifo_append (cap : Nat) :
    ∀ (ops1 ops2 : List FifoOp) (buf buf1 outs1 buff outs2 : List (Int × Int)),
      runFifo cap buf ops1 = some (buf1, outs1) →
      runFifo cap buf1 ops2 = some (buff, outs2) →
      runFifo cap buf (ops1 ++ ops2) = some (buff, outs1 ++ outs2) := by
  intro ops1
  induction ops1 with
  | nil =>
    intro ops2 buf buf1 outs1 buff outs2 h1 h2
    simp [runFifo] at h1
    obtain ⟨hb, ho⟩ := h1
    subst hb; subst ho
    simpa using h2
  | cons op ops ih =>
    intro ops2 buf buf1 outs1 buff outs2 h1 h2
    rw [runFifo] at h1
    rw [List.cons_append, runFifo]
    cases hop : fifoStep cap buf op with
    | none => simp only [hop] at h1; exact absurd h1 (by simp)
    | some p =>
      obtain ⟨bufm, out⟩ := p
      simp only [hop] at h1
      cases hrec : runFifo cap bufm ops with
      | none => simp only [hrec] at h1; exact absurd h1 (by simp)
      | some q =>
        obtain ⟨bufr, outsr⟩ := q
        simp only [hrec] at h1
        simp at h1
        obtain ⟨hb, ho⟩ := h1
        subst hb; subst ho
        dsimp only
        rw [ih ops2 bufm bufr outsr buff outs2 hrec h2]
        simp

lemma runFifo_pushes (cap : Nat) :
    ∀ (fs : List (Int × Int)) (buf : List (Int × Int)),
      buf.length + fs.length ≤ cap →
      runFifo cap buf (fs.map .push) = some (buf ++ fs, []) := by
  intro fs
  induction fs with
  | nil => intro buf _; simp [runFifo]
  | cons f fs ih =>
    intro buf hlen
    rw [List.map_cons, runFifo, fifoStep, if_pos (by simp at hlen; omega)]
    dsimp only
    rw [ih (buf ++ [f]) (by simp at hlen ⊢; omega)]
    simp

lemma runFifo_pops (cap : Nat) :
    ∀ (buf : List (Int × Int)),
      runFifo cap buf (List.replicate buf.length .pop) = some ([], buf) := by
  intro buf
  induction buf with
  | nil => simp [runFifo]
  | cons f rest ih =>
    rw [List.length_cons, List.replicate_succ, runFifo, fifoStep]
    dsimp only
    rw [ih]
    simp

/-- C3: within one session, the frames popped from the sample fifo (as
    modelled from the spec) are exactly the frames pushed, in push order,
    with no loss, duplication or reordering: for every interleaving that
    completes, popped frames followed by the frames still buffered equal
    the starting buffer followed by the pushed frames; a pop immediately
    after push f on an empty fifo returns exactly f; and N pushes
    followed by N pops return exactly the push sequence. -/
theorem fifo_order (cap : Nat) :
    (∀ (ops : List FifoOp) (buf buff outs : List (Int × Int)),
      runFifo cap buf ops = some (buff, outs) →
      outs ++ buff = buf ++ pushedFrames ops) ∧
    (∀ f : Int × Int, 0 < cap →
      runFifo cap [] [.push f, .pop] = some ([], [f])) ∧
    (∀ fs : List (Int × Int), fs.length ≤ cap →
      runFifo cap [] (fs.map .push ++ List.replicate fs.length .pop) =
        some ([], fs)) := by
  refine ⟨runFifo_invariant cap, ?_, ?_⟩
  · intro f hcap
    have h1 : runFifo cap [] [FifoOp.push f] = some ([f], []) := by
      have := runFifo_pushes cap [f] [] (by simpa using hcap)
      simpa using this
    have h2 : runFifo cap [f] [FifoOp.pop] = some ([], [f]) := by
      have := runFifo_pops cap [f]
      simpa using this
    have := runFifo_append cap [FifoOp.push f] [FifoOp.pop] [] [f] [] [] [f] h1 h2
    simpa using this
  · intro fs hlen
    have h1 : runFifo cap [] (fs.map FifoOp.push) = some (fs, []) := by
      have := runFifo_pushes cap fs [] (by simpa using hlen)
      simpa using this
    have h2 : runFifo cap fs (List.replicate fs.length FifoOp.pop) = some ([], fs) :=
      runFifo_pops cap fs
    have := runFifo_append cap (fs.map FifoOp.push)
      (List.replicate fs.length FifoOp.pop) [] fs [] [] fs h1 h2
    simpa using this

/-- C3 witness: capacity 2, pushing (1, 2) and (3, 4) then popping twice
    returns the pushes in order; a lone push--pop returns its frame. -/
theorem fifo_order_witness :
    ((0 : Nat) < 2 ∧
      runFifo 2 [] [.push (1, 2), .pop] = some ([], [(1, 2)])) ∧
    (([(1, 2), (3, 4)] : List (Int × Int)).length ≤ 2 ∧
      runFifo 2 [] ([(1, 2), (3, 4)].map .push ++
        List.replicate ([(1, 2), (3, 4)] : List (Int × Int)).length .pop) =
        some ([], [(1, 2), (3, 4)])) :=
  ⟨⟨by norm_num, (fifo_order 2).2.1 (1, 2) (by norm_num)⟩,
   ⟨by norm_num, (fifo_order 2).2.2 [(1, 2), (3, 4)] (by norm_num)⟩⟩

end I2S

namespace I2S

/-! Claim C2: the PIO bit-transmission program i2s_slave_tx
    (src/micro.py lines 17-44), embedded as actually configured by
    I2SSlaveTX.init (src/micro.py lines 48-65).  Two configuration
    facts bind the embedding:
    - in_base = self.bck_pin (GP0), so a wait(lvl, pin, idx)
      instruction monitors in_base + idx: idx 0 is GP0, the bit clock,
      and idx 1 is GP1, word-select — the opposite of what the
      program's comments say;
    - the asm_pio decorator leaves autopull at its default (disabled)
      and the program contains no pull instruction, so the output
      shift register is never loaded from the TX FIFO that
      send_sample's sm.put fills; out(pins, 1) keeps shifting the
      reset-state OSR, which holds zeros. -/

/-- One sampled input state: (GP0 level, GP1 level) = (bit-clock
    level, word-select level), GP0 being in_base. -/
abbrev PinState := Bool × Bool

/-- wait(lvl, pin, idx): stall until the monitored pin reads lvl;
    the pin is in_base + idx, so idx 0 is GP0 = bit clock and idx 1 is
    GP1 = word-select.  none when the finite trace ends first (the
    hardware would stall forever). -/
def waitPin (lvl : Bool) (idx : Nat) : List PinState → Option (List PinState)
  | [] => none
  | s :: rest =>
    if (if idx = 0 then s.1 else s.2) = lvl then some rest
    else waitPin lvl idx rest

/-- out(pins, 1) under PIO.SHIFT_LEFT on the 32-bit OSR: present the
    most significant bit and shift a zero into the vacated low end.
    With no pull instruction and autopull disabled nothing else ever
    writes the OSR. -/
def osrShift (osr : List Bool) : Bool × List Bool :=
  (osr.headD false, osr.tail ++ [false])

/-- One x-counted loop of i2s_slave_tx — set(x, 15) then 16 iterations
    of wait(1, pin, 1); out(pins, 1); wait(0, pin, 1) — so each
    emitted bit is paced by pin index 1, which is word-select as
    configured, not the bit clock. -/
def shiftLoop : Nat → List Bool → List PinState →
    Option (List Bool × List Bool × List PinState)
  | 0, osr, sig => some ([], osr, sig)
  | k + 1, osr, sig =>
    match waitPin true 1 sig with
    | none => none
    | some sig1 =>
      match waitPin false 1 sig1 with
      | none => none
      | some sig2 =>
        match shiftLoop k (osrShift osr).2 sig2 with
        | none => none
        | some (em, osrf, sigf) => some ((osrShift osr).1 :: em, osrf, sigf)

/-- One pass of the program body: wait(0, pin, 0) — the bit clock low,
    as configured — then a 16-bit loop, then wait(1, pin, 0) — the bit
    clock high — then the second 16-bit loop. -/
def i2s_slave_tx_pass (osr : List Bool) (sig : List PinState) :
    Option (List Bool × List Bool × List PinState) :=
  match waitPin false 0 sig with
  | none => none
  | some sig1 =>
    match shiftLoop 16 osr sig1 with
    | none => none
    | some (em1, osr1, sig2) =>
      match waitPin true 0 sig2 with
      | none => none
      | some sig3 =>
        match shiftLoop 16 osr1 sig3 with
        | none => none
        | some (em2, osr2, sig4) => some (em1 ++ em2, osr2, sig4)

/-- The program wraps to the top with no terminal state; n passes. -/
def i2s_slave_tx_run : Nat → List Bool → List PinState →
    Option (List Bool × List Bool × List PinState)
  | 0, osr, sig => some ([], osr, sig)
  | n + 1, osr, sig =>
    match i2s_slave_tx_pass osr sig with
    | none => none
    | some (em, osr1, sig1) =>
      match i2s_slave_tx_run n osr1 sig1 with
      | none => none
      | some (ems, osr2, sig2) => some (em ++ ems, osr2, sig2)

/-- A trace the configured program does accept for one pass: GP0 (the
    bit clock) gates the two halves and GP1 (word-select) pulses 16
    times per half — the inverse of the I2S roles the claim
    describes. -/
def demoTrace : List PinState :=
  (false, false) ::
    ((List.replicate 16 [((false : Bool), true), (false, false)]).flatten ++
      ((true, false) ::
        (List.replicate 16 [((true : Bool), true), (true, false)]).flatten))

lemma osrShift_false (osr : List Bool) (h : ∀ b ∈ osr, b = false) :
    (osrShift osr).1 = false ∧ ∀ b ∈ (osrShift osr).2, b = false := by
  constructor
  · rw [osrShift]
    cases osr with
    | nil => rfl
    | cons b t => exact h b (by simp)
  · intro b hb
    rw [osrShift] at hb
    rcases List.mem_append.mp hb with h2 | h2
    · exact h b (List.mem_of_mem_tail h2)
    · simpa using h2

lemma shiftLoop_false : ∀ (k : Nat) (osr : List Bool) (sig : List PinState)
    (em osrf : List Bool) (sigf : List PinState),
    (∀ b ∈ osr, b = false) →
    shiftLoop k osr sig = some (em, osrf, sigf) →
    (∀ b ∈ em, b = false) ∧ ∀ b ∈ osrf, b = false := by
  intro k
  induction k with
  | zero =>
    intro osr sig em osrf sigf hosr h
    rw [shiftLoop] at h
    simp at h
    obtain ⟨he, ho, -⟩ := h
    subst he
    subst ho
    exact ⟨by simp, hosr⟩
  | succ k ih =>
    intro osr sig em osrf sigf hosr h
    rw [shiftLoop] at h
    cases h1 : waitPin true 1 sig with
    | none => simp only [h1] at h; exact absurd h (by simp)
    | some sig1 =>
      simp only [h1] at h
      cases h2 : waitPin false 1 sig1 with
      | none => simp only [h2] at h; exact absurd h (by simp)
      | some sig2 =>
        simp only [h2] at h
        cases h3 : shiftLoop k (osrShift osr).2 sig2 with
        | none => simp only [h3] at h; exact absurd h (by simp)
        | some p =>
          obtain ⟨em1, osr1, sig3⟩ := p
          simp only [h3] at h
          simp at h
          obtain ⟨he, ho, -⟩ := h
          obtain ⟨hhead, htail⟩ := osrShift_false osr hosr
          obtain ⟨hem1, hosr1⟩ := ih (osrShift osr).2 sig2 em1 osr1 sig3 htail h3
          subst he
          subst ho
          refine ⟨?_, hosr1⟩
          intro b hb
          rcases List.mem_cons.mp hb with h4 | h4
          · subst h4
            exact hhead
          · exact hem1 b h4

lemma pass_false (osr : List Bool) (sig : List PinState)
    (em osrf : List Bool) (sigf : List PinState)
    (hosr : ∀ b ∈ osr, b = false)
    (h : i2s_slave_tx_pass osr sig = some (em, osrf, sigf)) :
    (∀ b ∈ em, b = false) ∧ ∀ b ∈ osrf, b = false := by
  rw [i2s_slave_tx_pass] at h
  cases h0 : waitPin false 0 sig with
  | none => simp only [h0] at h; exact absurd h (by simp)
  | some sig1 =>
    simp only [h0] at h
    cases h1 : shiftLoop 16 osr sig1 with
    | none => simp only [h1] at h; exact absurd h (by simp)
    | some p1 =>
      obtain ⟨em1, osr1, sig2⟩ := p1
      simp only [h1] at h
      cases h2 : waitPin true 0 sig2 with
      | none => simp only [h2] at h; exact absurd h (by simp)
      | some sig3 =>
        simp only [h2] at h
        cases h3 : shiftLoop 16 osr1 sig3 with
        | none => simp only [h3] at h; exact absurd h (by simp)
        | some p2 =>
          obtain ⟨em2, osr2, sig4⟩ := p2
          simp only [h3] at h
          simp at h
          obtain ⟨he, ho, -⟩ := h
          obtain ⟨hem1, hosr1⟩ := shiftLoop_false 16 osr sig1 em1 osr1 sig2 hosr h1
          obtain ⟨hem2, hosr2⟩ := shiftLoop_false 16 osr1 sig3 em2 osr2 sig4 hosr1 h3
          subst he
          subst ho
          refine ⟨?_, hosr2⟩
          intro b hb
          rcases List.mem_append.mp hb with h4 | h4
          · exact hem1 b h4
          · exact hem2 b h4

lemma run_false : ∀ (n : Nat) (osr : List Bool) (sig : List PinState)
    (em osrf : List Bool) (sigf : List PinState),
    (∀ b ∈ osr, b = false) →
    i2s_slave_tx_run n osr sig = some (em, osrf, sigf) →
    (∀ b ∈ em, b = false) ∧ ∀ b ∈ osrf, b = false := by
  intro n
  induction n with
  | zero =>
    intro osr sig em osrf sigf hosr h
    rw [i2s_slave_tx_run] at h
    simp at h
    obtain ⟨he, ho, -⟩ := h
    subst he
    subst ho
    exact ⟨by simp, hosr⟩
  | succ n ih =>
    intro osr sig em osrf sigf hosr h
    rw [i2s_slave_tx_run] at h
    cases h1 : i2s_slave_tx_pass osr sig with
    | none => simp only [h1] at h; exact absurd h (by simp)
    | some p1 =>
      obtain ⟨em1, osr1, sig1⟩ := p1
      simp only [h1] at h
      cases h2 : i2s_slave_tx_run n osr1 sig1 with
      | none => simp only [h2] at h; exact absurd h (by simp)
      | some p2 =>
        obtain ⟨em2, osr2, sig2⟩ := p2
        simp only [h2] at h
        simp at h
        obtain ⟨he, ho, -⟩ := h
        obtain ⟨hem1, hosr1⟩ := pass_false osr sig em1 osr1 sig1 hosr h1
        obtain ⟨hem2, hosr2⟩ := ih osr1 sig1 em2 osr2 sig2 hosr1 h2
        subst he
        subst ho
        refine ⟨?_, hosr2⟩
        intro b hb
        rcases List.mem_append.mp hb with h4 | h4
        · exact hem1 b h4
        · exact hem2 b h4

lemma waitPin_bck_high (sig : List PinState) (h : ∀ s ∈ sig, s.1 = true) :
    waitPin false 0 sig = none := by
  induction sig with
  | nil => rfl
  | cons s rest ih =>
    rw [waitPin]
    have hs : s.1 = true := h s (by simp)
    rw [if_neg (by simp [hs])]
    exact ih fun x hx => h x (by simp [hx])

/-- C2 (code bug): the claim describes the program's comments, but as
    configured — in_base = bck_pin, so wait pin 0 is the bit clock and
    wait pin 1 is word-select, and no pull with autopull disabled, so
    the OSR is never refilled from the TX FIFO — the program diverges
    from it: every bit it ever emits from the reset OSR is zero, for
    every input trace and any number of passes, regardless of the
    frames send_sample pushed; a trace whose bit clock sits high makes
    no progress even with word-select held low (so shifting is not
    begun by observing word-select low), in particular the single
    sample (bit clock high, word-select low) leaves it stuck; and the
    one-pass trace it does accept is gated by the bit clock and paced
    by word-select, the inverse of the claimed roles, emitting 32 zero
    bits. -/
theorem pio_configured_diverges :
    (∀ (n : Nat) (sig : List PinState) (em osrf : List Bool)
        (sigf : List PinState),
      i2s_slave_tx_run n (List.replicate 32 false) sig =
        some (em, osrf, sigf) →
      ∀ b ∈ em, b = false) ∧
    (∀ sig : List PinState, (∀ s ∈ sig, s.1 = true) →
      i2s_slave_tx_pass (List.replicate 32 false) sig = none) ∧
    i2s_slave_tx_pass (List.replicate 32 false) [(true, false)] = none ∧
    i2s_slave_tx_run 1 (List.replicate 32 false) demoTrace =
      some (List.replicate 32 false, List.replicate 32 false, []) := by
  refine ⟨?_, ?_, ?_, ?_⟩
  · intro n sig em osrf sigf h
    exact (run_false n (List.replicate 32 false) sig em osrf sigf (by simp) h).1
  · intro sig hsig
    rw [i2s_slave_tx_pass, waitPin_bck_high sig hsig]
  · decide
  · decide

/-- C2 witness: the stuck single-sample trace (bit clock high,
    word-select low). -/
theorem pio_configured_diverges_witness :
    i2s_slave_tx_pass (List.replicate 32 false) [(true, false)] = none :=
  pio_configured_diverges.2.1 [(true, false)] (by decide)

end I2S

namespace I2S

/-! Claims C4, C5, C6, C9: the WAV header parser. -/

lemma pySlice_of_drop (h : List Nat) (pos n : Nat) (mid tail : List Nat)
    (hdrop : h.drop pos = mid ++ tail) (hmid : mid.length = n) :
    pySlice h pos (pos + n) = mid := by
  rw [pySlice, hdrop, show pos + n - pos = n from by omega, List.take_left' hmid]

lemma unpackI_of_length4 (bs : List Nat) (h : bs.length = 4) :
    ∃ v, unpackI bs = some v := by
  match bs, h with
  | [b0, b1, b2, b3], _ => exact ⟨le32v b0 b1 b2 b3, rfl⟩

lemma le32_length (n : Nat) : (le32 n).length = 4 := rfl

lemma unpackI_le32 (n : Nat) (h : n < 4294967296) : unpackI (le32 n) = some n := by
  rw [le32, unpackI]
  rw [le32v]
  congr 1
  omega

lemma drop_take_two (l : List Nat) (k : Nat) (h : k + 2 ≤ l.length) :
    (l.drop k).take 2 = [l.getD k 0, l.getD (k + 1) 0] := by
  rw [List.drop_eq_getElem_cons (show k < l.length by omega)]
  rw [List.drop_eq_getElem_cons (show k + 1 < l.length by omega)]
  rw [List.getD_eq_getElem l 0 (show k < l.length by omega),
    List.getD_eq_getElem l 0 (show k + 1 < l.length by omega)]
  rfl

lemma drop_take_four (l : List Nat) (k : Nat) (h : k + 4 ≤ l.length) :
    (l.drop k).take 4 =
      [l.getD k 0, l.getD (k + 1) 0, l.getD (k + 2) 0, l.getD (k + 3) 0] := by
  rw [List.drop_eq_getElem_cons (show k < l.length by omega)]
  rw [List.drop_eq_getElem_cons (show k + 1 < l.length by omega)]
  rw [List.drop_eq_getElem_cons (show k + 2 < l.length by omega)]
  rw [List.drop_eq_getElem_cons (show k + 3 < l.length by omega)]
  rw [List.getD_eq_getElem l 0 (show k < l.length by omega),
    List.getD_eq_getElem l 0 (show k + 1 < l.length by omega),
    List.getD_eq_getElem l 0 (show k + 2 < l.length by omega),
    List.getD_eq_getElem l 0 (show k + 3 < l.length by omega)]
  rfl

lemma pySlice_zero (l : List Nat) (b : Nat) : pySlice l 0 b = l.take b := by
  rw [pySlice, List.drop_zero, Nat.sub_zero]

lemma findFmt_found (pre payload rest : List Nat)
    (h16 : 16 ≤ payload.length) (hlt : payload.length < 4294967296) :
    findFmt (pre ++ (fmtId ++ (le32 payload.length ++ (payload ++ rest))))
        pre.length =
      .ok ⟨le16 (payload.getD 0 0) (payload.getD 1 0),
           le16 (payload.getD 2 0) (payload.getD 3 0),
           le32v (payload.getD 4 0) (payload.getD 5 0)
             (payload.getD 6 0) (payload.getD 7 0),
           le16 (payload.getD 14 0) (payload.getD 15 0)⟩ := by
  set h := pre ++ (fmtId ++ (le32 payload.length ++ (payload ++ rest))) with hdef
  have hlen : h.length = pre.length + 8 + payload.length + rest.length := by
    simp [hdef, fmtId, le32]
    omega
  have hd0 : h.drop pre.length = fmtId ++ (le32 payload.length ++ (payload ++ rest)) := by
    rw [hdef, List.drop_left]
  have hd4 : h.drop (pre.length + 4) = le32 payload.length ++ (payload ++ rest) := by
    rw [← List.drop_drop, hd0, List.drop_left' (show (fmtId : List Nat).length = 4 from rfl)]
  have hd8 : h.drop (pre.length + 8) = payload ++ rest := by
    rw [show pre.length + 8 = pre.length + 4 + 4 from by omega,
      ← List.drop_drop, hd4, List.drop_left' (le32_length _)]
  have hsid : pySlice h pre.length (pre.length + 4) = fmtId :=
    pySlice_of_drop h pre.length 4 fmtId _ hd0 rfl
  have hssz : pySlice h (pre.length + 4) (pre.length + 8) = le32 payload.length := by
    rw [show pre.length + 8 = pre.length + 4 + 4 from by omega]
    exact pySlice_of_drop h (pre.length + 4) 4 (le32 payload.length) _ hd4 (le32_length _)
  have hsdata : pySlice h (pre.length + 8) (pre.length + 8 + payload.length) = payload :=
    pySlice_of_drop h (pre.length + 8) payload.length payload _ hd8 rfl
  rw [findFmt, dif_pos (by omega), hssz, unpackI_le32 _ hlt]
  dsimp only
  rw [if_pos hsid, hsdata]
  have s1 : pySlice payload 0 2 = [payload.getD 0 0, payload.getD 1 0] := by
    rw [pySlice, List.drop_zero]
    have := drop_take_two payload 0 (by omega)
    rwa [List.drop_zero] at this
  have s2 : pySlice payload 2 4 = [payload.getD 2 0, payload.getD 3 0] := by
    rw [pySlice]
    exact drop_take_two payload 2 (by omega)
  have s3 : pySlice payload 4 8 =
      [payload.getD 4 0, payload.getD 5 0, payload.getD 6 0, payload.getD 7 0] := by
    rw [pySlice]
    exact drop_take_four payload 4 (by omega)
  have s4 : pySlice payload 14 16 = [payload.getD 14 0, payload.getD 15 0] := by
    rw [pySlice]
    exact drop_take_two payload 14 (by omega)
  rw [s1, s2, s3, s4]
  rfl

lemma findFmt_skip (pre cid payload rest : List Nat)
    (hid : cid.length = 4) (hne : cid ≠ fmtId)
    (hlt : payload.length < 4294967296) (hrest : rest ≠ []) :
    findFmt (pre ++ (cid ++ (le32 payload.length ++ (payload ++ rest))))
        pre.length =
      findFmt (pre ++ (cid ++ (le32 payload.length ++ (payload ++ rest))))
        (pre.length + (8 + payload.length)) := by
  set h := pre ++ (cid ++ (le32 payload.length ++ (payload ++ rest))) with hdef
  have hlen : h.length = pre.length + 8 + payload.length + rest.length := by
    simp [hdef, le32, hid]
    omega
  have hrl : 0 < rest.length := List.length_pos.mpr hrest
  have hd0 : h.drop pre.length = cid ++ (le32 payload.length ++ (payload ++ rest)) := by
    rw [hdef, List.drop_left]
  have hd4 : h.drop (pre.length + 4) = le32 payload.length ++ (payload ++ rest) := by
    rw [← List.drop_drop, hd0, List.drop_left' hid]
  have hsid : pySlice h pre.length (pre.length + 4) = cid :=
    pySlice_of_drop h pre.length 4 cid _ hd0 hid
  have hssz : pySlice h (pre.length + 4) (pre.length + 8) = le32 payload.length := by
    rw [show pre.length + 8 = pre.length + 4 + 4 from by omega]
    exact pySlice_of_drop h (pre.length + 4) 4 (le32 payload.length) _ hd4 (le32_length _)
  conv =>
    lhs
    rw [findFmt]
  rw [dif_pos (by omega), hssz, unpackI_le32 _ hlt]
  dsimp only
  rw [hsid, if_neg hne]

end I2S

namespace I2S

/-- Byte encoding of one RIFF chunk: 4-byte id, 4-byte little-endian
    declared length, then the payload. -/
def chunkBytes (cid payload : List Nat) : List Nat :=
  cid ++ (le32 payload.length ++ payload)

/-- Byte encoding of a list of chunks. -/
def chunksBytes : List (List Nat × List Nat) → List Nat
  | [] => []
  | c :: cs => chunkBytes c.1 c.2 ++ chunksBytes cs

lemma findFmt_walk : ∀ (junk : List (List Nat × List Nat))
    (pre payload rest : List Nat),
    (∀ c ∈ junk, c.1.length = 4 ∧ c.1 ≠ fmtId ∧ c.2.length < 4294967296) →
    16 ≤ payload.length → payload.length < 4294967296 →
    findFmt (pre ++ (chunksBytes junk ++
        (fmtId ++ (le32 payload.length ++ (payload ++ rest))))) pre.length =
      .ok ⟨le16 (payload.getD 0 0) (payload.getD 1 0),
           le16 (payload.getD 2 0) (payload.getD 3 0),
           le32v (payload.getD 4 0) (payload.getD 5 0)
             (payload.getD 6 0) (payload.getD 7 0),
           le16 (payload.getD 14 0) (payload.getD 15 0)⟩ := by
  intro junk
  induction junk with
  | nil =>
    intro pre payload rest _ h16 hlt
    rw [show chunksBytes [] = [] from rfl, List.nil_append]
    exact findFmt_found pre payload rest h16 hlt
  | cons c cs ih =>
    intro pre payload rest hjunk h16 hlt
    obtain ⟨hid, hne, hsz⟩ := hjunk c (by simp)
    set tail := chunksBytes cs ++ (fmtId ++ (le32 payload.length ++ (payload ++ rest)))
      with htail
    have htne : tail ≠ [] := by
      intro hnil
      have : tail.length = 0 := by rw [hnil]; rfl
      rw [htail] at this
      simp [fmtId, le32] at this
    have e1 : pre ++ (chunksBytes (c :: cs) ++
        (fmtId ++ (le32 payload.length ++ (payload ++ rest)))) =
        pre ++ (c.1 ++ (le32 c.2.length ++ (c.2 ++ tail))) := by
      rw [htail, show chunksBytes (c :: cs) = chunkBytes c.1 c.2 ++ chunksBytes cs
        from rfl, chunkBytes]
      simp [List.append_assoc]
    rw [e1, findFmt_skip pre c.1 c.2 tail hid hne hsz htne]
    have e2 : pre ++ (c.1 ++ (le32 c.2.length ++ (c.2 ++ tail))) =
        (pre ++ chunkBytes c.1 c.2) ++ (chunksBytes cs ++
          (fmtId ++ (le32 payload.length ++ (payload ++ rest)))) := by
      rw [chunkBytes, htail]
      simp [List.append_assoc]
    have e3 : pre.length + (8 + c.2.length) = (pre ++ chunkBytes c.1 c.2).length := by
      simp [chunkBytes, hid, le32]
      omega
    rw [e2, e3, ih (pre ++ chunkBytes c.1 c.2) payload rest
      (fun x hx => hjunk x (by simp [hx])) h16 hlt]

lemma parse_header_ok (szBytes : List Nat) (hsz : szBytes.length = 4)
    (junk : List (List Nat × List Nat)) (payload rest : List Nat)
    (hjunk : ∀ c ∈ junk, c.1.length = 4 ∧ c.1 ≠ fmtId ∧ c.2.length < 4294967296)
    (h16 : 16 ≤ payload.length) (hlt : payload.length < 4294967296) :
    parse_wav_header (riffId ++ (szBytes ++ (waveId ++ (chunksBytes junk ++
        (fmtId ++ (le32 payload.length ++ (payload ++ rest))))))) =
      .ok ⟨le16 (payload.getD 0 0) (payload.getD 1 0),
           le16 (payload.getD 2 0) (payload.getD 3 0),
           le32v (payload.getD 4 0) (payload.getD 5 0)
             (payload.getD 6 0) (payload.getD 7 0),
           le16 (payload.getD 14 0) (payload.getD 15 0)⟩ := by
  set h := riffId ++ (szBytes ++ (waveId ++ (chunksBytes junk ++
    (fmtId ++ (le32 payload.length ++ (payload ++ rest)))))) with hdef
  have hm1 : pySlice h 0 4 = riffId := by
    rw [pySlice_zero, hdef, List.take_left' (show (riffId : List Nat).length = 4 from rfl)]
  have hd8 : h.drop 8 = waveId ++ (chunksBytes junk ++
      (fmtId ++ (le32 payload.length ++ (payload ++ rest)))) := by
    rw [hdef, show (8 : Nat) = 4 + 4 from rfl, ← List.drop_drop,
      List.drop_left' (show (riffId : List Nat).length = 4 from rfl),
      List.drop_left' hsz]
  have hm2 : pySlice h 8 12 = waveId := by
    have := pySlice_of_drop h 8 4 waveId _ hd8 rfl
    exact this
  rw [parse_wav_header, if_neg (by simp [hm1, hm2])]
  have e : h = (riffId ++ (szBytes ++ waveId)) ++ (chunksBytes junk ++
      (fmtId ++ (le32 payload.length ++ (payload ++ rest)))) := by
    rw [hdef]
    simp [List.append_assoc]
  have hl12 : (12 : Nat) = (riffId ++ (szBytes ++ waveId)).length := by
    simp [riffId, waveId, hsz]
  rw [e, hl12, findFmt_walk junk (riffId ++ (szBytes ++ waveId)) payload rest
    hjunk h16 hlt]

/-- C4: for every well-formed WAV byte sequence — RIFF/WAVE magic, then
    any run of non-fmt chunks with correct declared lengths, then a fmt
    chunk whose payload has at least 16 bytes — parse_wav_header skips
    each unknown chunk by its declared length plus the 8-byte header and
    returns exactly the format code, channel count, sample rate and
    bits-per-sample encoded at offsets 0, 2, 4 and 14 of the fmt
    payload. -/
theorem parse_wav_header_fmt_fields (junk : List (List Nat × List Nat))
    (sz : Nat) (payload rest : List Nat)
    (hjunk : ∀ c ∈ junk, c.1.length = 4 ∧ c.1 ≠ fmtId ∧ c.2.length < 4294967296)
    (h16 : 16 ≤ payload.length) (hlt : payload.length < 4294967296) :
    parse_wav_header (riffId ++ (le32 sz ++ (waveId ++ (chunksBytes junk ++
        (fmtId ++ (le32 payload.length ++ (payload ++ rest))))))) =
      .ok ⟨le16 (payload.getD 0 0) (payload.getD 1 0),
           le16 (payload.getD 2 0) (payload.getD 3 0),
           le32v (payload.getD 4 0) (payload.getD 5 0)
             (payload.getD 6 0) (payload.getD 7 0),
           le16 (payload.getD 14 0) (payload.getD 15 0)⟩ :=
  parse_header_ok (le32 sz) (le32_length sz) junk payload rest hjunk h16 hlt

/-- C4 witness: a WAV header with one unknown 3-byte JUNK chunk before a
    16-byte fmt chunk encoding format 1, 2 channels, rate 44100, 16
    bits. -/
theorem parse_wav_header_fmt_fields_witness :
    parse_wav_header (riffId ++ (le32 51 ++ (waveId ++ (chunksBytes
        [([74, 85, 78, 75], [9, 9, 9])] ++
        (fmtId ++ (le32 ([1, 0, 2, 0, 68, 172, 0, 0, 16, 177, 2, 0, 4, 0, 16, 0] :
            List Nat).length ++
          ([1, 0, 2, 0, 68, 172, 0, 0, 16, 177, 2, 0, 4, 0, 16, 0] ++ []))))))) =
      .ok ⟨1, 2, 44100, 16⟩ := by
  have h := parse_wav_header_fmt_fields [([74, 85, 78, 75], [9, 9, 9])] 51
    [1, 0, 2, 0, 68, 172, 0, 0, 16, 177, 2, 0, 4, 0, 16, 0] []
    (by decide) (by decide) (by decide)
  rw [h]
  rfl

end I2S

namespace I2S

/-- Specification-side predicate for C5: a fmt chunk is found by the
    chunk walk before it exhausts the input (same walk positions as the
    code: start at 12, advance by 8 plus each declared length). -/
def specHasFmt (header : List Nat) (pos : Nat) : Bool :=
  if _h : pos < header.length - 8 then
    match unpackI (pySlice header (pos + 4) (pos + 8)) with
    | none => false
    | some chunk_size =>
      if pySlice header pos (pos + 4) = fmtId then true
      else specHasFmt header (pos + (8 + chunk_size))
  else false
termination_by header.length - pos
decreasing_by omega

lemma pySlice_len_four (header : List Nat) (pos : Nat)
    (hpos : pos < header.length - 8) :
    (pySlice header (pos + 4) (pos + 8)).length = 4 := by
  rw [pySlice, List.length_take, List.length_drop]
  omega

lemma findFmt_formatError_iff (header : List Nat) (pos : Nat) :
    (∃ s, findFmt header pos = .error (.formatError s)) ↔
      specHasFmt header pos = false := by
  rw [findFmt, specHasFmt]
  by_cases hpos : pos < header.length - 8
  · rw [dif_pos hpos, dif_pos hpos]
    obtain ⟨cs, hcs⟩ := unpackI_of_length4 _ (pySlice_len_four header pos hpos)
    rw [hcs]
    dsimp only
    by_cases hfmt : pySlice header pos (pos + 4) = fmtId
    · rw [if_pos hfmt, if_pos hfmt]
      constructor
      · rintro ⟨s, hs⟩
        exfalso
        cases e1 : unpackH (pySlice (pySlice header (pos + 8) (pos + 8 + cs)) 0 2) <;>
          cases e2 : unpackH (pySlice (pySlice header (pos + 8) (pos + 8 + cs)) 2 4) <;>
          cases e3 : unpackI (pySlice (pySlice header (pos + 8) (pos + 8 + cs)) 4 8) <;>
          cases e4 : unpackH (pySlice (pySlice header (pos + 8) (pos + 8 + cs)) 14 16) <;>
          simp only [e1, e2, e3, e4] at hs <;> exact absurd hs (by simp)
      · intro hcontra
        exact absurd hcontra (by simp)
    · rw [if_neg hfmt, if_neg hfmt]
      exact findFmt_formatError_iff header (pos + (8 + cs))
  · rw [dif_neg hpos, dif_neg hpos]
    simp
termination_by header.length - pos
decreasing_by omega

/-- C5: parse_wav_header fails with its ValueError format error exactly
    when the RIFF/WAVE magic is absent (bytes 0-3 are not RIFF or bytes
    8-11 are not WAVE) or the chunk walk from offset 12 exhausts the
    input without finding a fmt chunk; the Except result carries either
    the error or a complete descriptor, never both. -/
theorem parse_wav_header_format_error_iff (header : List Nat) :
    (∃ s, parse_wav_header header = .error (.formatError s)) ↔
      (pySlice header 0 4 ≠ riffId ∨ pySlice header 8 12 ≠ waveId ∨
        specHasFmt header 12 = false) := by
  rw [parse_wav_header]
  by_cases hmagic : pySlice header 0 4 ≠ riffId ∨ pySlice header 8 12 ≠ waveId
  · rw [if_pos hmagic]
    constructor
    · intro _
      rcases hmagic with h | h
      · exact Or.inl h
      · exact Or.inr (Or.inl h)
    · intro _
      exact ⟨"Not a valid WAV file", rfl⟩
  · rw [if_neg hmagic]
    push_neg at hmagic
    rw [findFmt_formatError_iff header 12]
    constructor
    · intro h
      exact Or.inr (Or.inr h)
    · rintro (h | h | h)
      · exact absurd hmagic.1 h
      · exact absurd hmagic.2 h
      · exact h

/-- Fuel-indexed version of the chunk walk, used to bound the number of
    loop iterations: none means the fuel ran out. -/
def findFmtFuel (fuel : Nat) (header : List Nat) (pos : Nat) :
    Option (Except WavError WavInfo) :=
  match fuel with
  | 0 => none
  | fuel + 1 =>
    if pos < header.length - 8 then
      match unpackI (pySlice header (pos + 4) (pos + 8)) with
      | none => some (.error .structError)
      | some chunk_size =>
        if pySlice header pos (pos + 4) = fmtId then
          let fmt_data := pySlice header (pos + 8) (pos + 8 + chunk_size)
          some (match unpackH (pySlice fmt_data 0 2), unpackH (pySlice fmt_data 2 4),
              unpackI (pySlice fmt_data 4 8), unpackH (pySlice fmt_data 14 16) with
            | some audio_format, some channels, some sample_rate, some bits_per_sample =>
              .ok ⟨audio_format, channels, sample_rate, bits_per_sample⟩
            | _, _, _, _ => .error .structError)
        else findFmtFuel fuel header (pos + (8 + chunk_size))
    else some (.error (.formatError "No fmt chunk found"))

/-- C9: the chunk walk terminates on every finite input: each iteration
    advances the position by 8 plus the chunk's non-negative declared
    length, so at most (length - pos + 8) / 8 iterations happen; with
    that much fuel the fuel-indexed walk completes and computes exactly
    findFmt, hence parse_wav_header always returns a value. -/
theorem findFmt_terminates : ∀ (fuel : Nat) (header : List Nat) (pos : Nat),
    header.length - pos + 8 ≤ 8 * fuel →
    findFmtFuel fuel header pos = some (findFmt header pos) := by
  intro fuel
  induction fuel with
  | zero => intro header pos h; omega
  | succ fuel ih =>
    intro header pos hfuel
    rw [findFmtFuel]
    conv =>
      rhs
      rw [findFmt]
    by_cases hpos : pos < header.length - 8
    · rw [if_pos hpos, dif_pos hpos]
      obtain ⟨cs, hcs⟩ := unpackI_of_length4 _ (pySlice_len_four header pos hpos)
      rw [hcs]
      dsimp only
      by_cases hfmt : pySlice header pos (pos + 4) = fmtId
      · rw [if_pos hfmt, if_pos hfmt]
      · rw [if_neg hfmt, if_neg hfmt]
        exact ih header (pos + (8 + cs)) (by omega)
    · rw [if_neg hpos, dif_neg hpos]

/-- C9 witness: the empty input needs one unit of fuel. -/
theorem findFmt_terminates_witness :
    ([] : List Nat).length - 0 + 8 ≤ 8 * 1 ∧
      findFmtFuel 1 [] 0 = some (findFmt [] 0) :=
  ⟨by norm_num, findFmt_terminates 1 [] 0 (by norm_num)⟩

end I2S

namespace I2S

/-- C6: on the concrete input RIFF header + 16-byte fmt chunk encoding
    PCM, 2 channels, 44100 Hz, 16 bits + data chunk with payload
    01 00 02 00 FF FF 00 80, parsing yields the descriptor
    (PCM, 2 channels, 44100 Hz, 16-bit) and the assembler turns the
    payload into exactly the frames (1, 2) then (-1, -32768). -/
theorem end_to_end_scenario :
    parse_wav_header
        [82, 73, 70, 70, 44, 0, 0, 0, 87, 65, 86, 69,
         102, 109, 116, 32, 16, 0, 0, 0,
         1, 0, 2, 0, 68, 172, 0, 0, 16, 177, 2, 0, 4, 0, 16, 0,
         100, 97, 116, 97, 8, 0, 0, 0,
         1, 0, 2, 0, 255, 255, 0, 128] =
      .ok ⟨1, 2, 44100, 16⟩ ∧
    send_samples [1, 0, 2, 0, 255, 255, 0, 128] = [(1, 2), (-1, -32768)] := by
  constructor
  · rw [parse_wav_header, if_neg (by decide)]
    have e : ([82, 73, 70, 70, 44, 0, 0, 0, 87, 65, 86, 69,
         102, 109, 116, 32, 16, 0, 0, 0,
         1, 0, 2, 0, 68, 172, 0, 0, 16, 177, 2, 0, 4, 0, 16, 0,
         100, 97, 116, 97, 8, 0, 0, 0,
         1, 0, 2, 0, 255, 255, 0, 128] : List Nat) =
        [82, 73, 70, 70, 44, 0, 0, 0, 87, 65, 86, 69] ++
          (fmtId ++ (le32 ([1, 0, 2, 0, 68, 172, 0, 0, 16, 177, 2, 0, 4, 0, 16, 0] :
              List Nat).length ++
            ([1, 0, 2, 0, 68, 172, 0, 0, 16, 177, 2, 0, 4, 0, 16, 0] ++
              [100, 97, 116, 97, 8, 0, 0, 0, 1, 0, 2, 0, 255, 255, 0, 128]))) := by
      decide
    have h12 : (12 : Nat) =
        ([82, 73, 70, 70, 44, 0, 0, 0, 87, 65, 86, 69] : List Nat).length := by
      decide
    rw [e, h12, findFmt_found [82, 73, 70, 70, 44, 0, 0, 0, 87, 65, 86, 69]
      [1, 0, 2, 0, 68, 172, 0, 0, 16, 177, 2, 0, 4, 0, 16, 0]
      [100, 97, 116, 97, 8, 0, 0, 0, 1, 0, 2, 0, 255, 255, 0, 128]
      (by decide) (by decide)]
    rfl
  · rw [send_samples_eq_framesOfBytes]
    decide

end I2S

namespace I2S

/-! Embedding of src/ps.py: convert_to_stereo_16bit (lines 30-95). -/

/-- Little-endian value of a byte string of any length. -/
def leVal : List Nat → Nat
  | [] => 0
  | b :: rest => b + 256 * leVal rest

/-- int.from_bytes(bs, little, signed=True): two's-complement signed
    reading of a little-endian byte string. -/
def signedLE (bs : List Nat) : Int :=
  if 2 * leVal bs < 2 ^ (8 * bs.length) then (leVal bs : Int)
  else (leVal bs : Int) - ((2 ^ (8 * bs.length) : Nat) : Int)

/-- Consecutive slices l[i:i+k] for i in range(0, len(l), k). -/
def chunksOf (k : Nat) (l : List Nat) : List (List Nat) :=
  if _h : k = 0 ∨ l = [] then [] else l.take k :: chunksOf k (l.drop k)
termination_by l.length
decreasing_by
  push_neg at _h
  have hpos := List.length_pos.mpr _h.2
  simp only [List.length_drop]
  omega

/-- struct.pack with a run of little-endian signed 16-bit fields: packs
    each value (struct.error, i.e. none, if any is out of range). -/
def packSamples : List Int → Option (List Nat)
  | [] => some []
  | v :: vs =>
    match packh v, packSamples vs with
    | some bv, some rest => some (bv ++ rest)
    | _, _ => none

/-- Bit-depth normalization step of convert_to_stereo_16bit
    (src/ps.py lines 43-59): 8-bit unsigned bytes map through
    (s - 128) * 256; 24-bit groups are read signed little-endian and
    floor-divided by 256; 32-bit groups (whole buffer must be 4-byte
    aligned or struct.unpack fails) are floor-divided by 65536; other
    widths pass through unchanged. -/
def convertDepth (sampwidth : Nat) (frames : List Nat) : Option (List Nat) :=
  if sampwidth = 1 then
    packSamples (frames.map fun s : Nat => ((s : Int) - 128) * 256)
  else if sampwidth = 3 then
    packSamples ((chunksOf 3 frames).map fun bs => (signedLE bs).fdiv 256)
  else if sampwidth = 4 then
    if frames.length % 4 = 0 then
      packSamples ((chunksOf 4 frames).map fun bs => (signedLE bs).fdiv 65536)
    else none
  else some frames

/-- Mono-to-stereo step (src/ps.py lines 62-69): unpack 16-bit signed
    samples (buffer must be 2-byte aligned), duplicate each, repack. -/
def monoToStereo (frames : List Nat) : Option (List Nat) :=
  if frames.length % 2 = 0 then
    packSamples ((((chunksOf 2 frames).map fun bs => signedLE bs).map
      fun s => [s, s]).flatten)
  else none

/-- Embedding of convert_to_stereo_16bit (src/ps.py lines 30-95): the
    output WAV byte string it returns, given the wave-module fields
    (channel count, sample width in bytes, frame rate) and the raw frame
    bytes; none models a struct.error. -/
def convert_to_stereo_16bit (channels sampwidth framerate : Nat)
    (frames : List Nat) : Option (List Nat) :=
  match convertDepth sampwidth frames with
  | none => none
  | some frames1 =>
    match (if channels = 1 then (monoToStereo frames1).map fun f => (f, 2)
           else some (frames1, channels)) with
    | none => none
    | some p =>
      match packI (36 + p.1.length), packI 16, packHu 1, packHu p.2,
            packI framerate, packI (framerate * p.2 * 2), packHu (p.2 * 2),
            packHu 16, packI p.1.length with
      | some sz, some fsz, some fmtTag, some ch, some sr, some br, some ba,
          some bits, some dl =>
        some (riffId ++ sz ++ waveId ++ fmtId ++ fsz ++ fmtTag ++ ch ++ sr ++
          br ++ ba ++ bits ++ dataId ++ dl ++ p.1)
      | _, _, _, _, _, _, _, _, _ => none

end I2S

namespace I2S

/-! Claim C10: range safety of the bit-depth conversion. -/

lemma leVal_lt (bs : List Nat) (h : ∀ b ∈ bs, b < 256) :
    leVal bs < 2 ^ (8 * bs.length) := by
  induction bs with
  | nil => simp [leVal]
  | cons b rest ih =>
    have hb : b < 256 := h b (by simp)
    have hr : leVal rest < 2 ^ (8 * rest.length) := ih fun x hx => h x (by simp [hx])
    rw [leVal, List.length_cons]
    have hp : (2 : Nat) ^ (8 * (rest.length + 1)) = 256 * 2 ^ (8 * rest.length) := by
      rw [show 8 * (rest.length + 1) = 8 * rest.length + 8 from by ring, pow_add]
      norm_num
      ring
    rw [hp]
    omega

lemma signedLE_bounds (bs : List Nat) (h : ∀ b ∈ bs, b < 256) (hne : bs ≠ []) :
    -(2 : Int) ^ (8 * bs.length - 1) ≤ signedLE bs ∧
      signedLE bs < (2 : Int) ^ (8 * bs.length - 1) := by
  have hv := leVal_lt bs h
  have hlp := List.length_pos.mpr hne
  have he : 8 * bs.length - 1 + 1 = 8 * bs.length := by omega
  have hp : (2 : Nat) ^ (8 * bs.length) = 2 * 2 ^ (8 * bs.length - 1) := by
    calc (2 : Nat) ^ (8 * bs.length) = 2 ^ (8 * bs.length - 1 + 1) := by rw [he]
      _ = 2 ^ (8 * bs.length - 1) * 2 := pow_succ 2 _
      _ = 2 * 2 ^ (8 * bs.length - 1) := by ring
  have hpow : (0 : Int) < (2 : Int) ^ (8 * bs.length - 1) := by positivity
  rw [signedLE]
  by_cases hc : 2 * leVal bs < 2 ^ (8 * bs.length)
  · rw [if_pos hc]
    rw [hp] at hc
    have hcN : leVal bs < 2 ^ (8 * bs.length - 1) := by omega
    have hcI : ((leVal bs : Nat) : Int) < (2 : Int) ^ (8 * bs.length - 1) := by
      exact_mod_cast hcN
    have hnn : (0 : Int) ≤ ((leVal bs : Nat) : Int) := by positivity
    exact ⟨by linarith, hcI⟩
  · rw [if_neg hc]
    push_neg at hc
    rw [hp] at hc
    have hgeN : 2 ^ (8 * bs.length - 1) ≤ leVal bs := by omega
    have hgeI : (2 : Int) ^ (8 * bs.length - 1) ≤ ((leVal bs : Nat) : Int) := by
      exact_mod_cast hgeN
    rw [hp] at hv
    have hltI : ((leVal bs : Nat) : Int) < 2 * (2 : Int) ^ (8 * bs.length - 1) := by
      exact_mod_cast hv
    have hcast : (((2 : Nat) ^ (8 * bs.length) : Nat) : Int) =
        2 * (2 : Int) ^ (8 * bs.length - 1) := by
      exact_mod_cast hp
    rw [hcast]
    exact ⟨by linarith, by linarith⟩

lemma le16b_bytes (n : Nat) : ∀ b ∈ le16b n, b < 256 := by
  intro b hb
  rw [le16b] at hb
  simp at hb
  rcases hb with h | h <;> omega

lemma packh_some (v : Int) (h0 : -32768 ≤ v) (h1 : v < 32768) :
    packh v = some (le16b (v % 65536).toNat) := by
  rw [packh, if_pos ⟨h0, h1⟩]

lemma packSamples_some (vs : List Int) (h : ∀ v ∈ vs, -32768 ≤ v ∧ v < 32768) :
    ∃ out, packSamples vs = some out ∧ out.length = 2 * vs.length ∧
      ∀ b ∈ out, b < 256 := by
  induction vs with
  | nil => exact ⟨[], rfl, rfl, by simp⟩
  | cons v vs ih =>
    obtain ⟨hv0, hv1⟩ := h v (by simp)
    obtain ⟨out, hout, hlen, hb⟩ := ih fun x hx => h x (by simp [hx])
    refine ⟨le16b (v % 65536).toNat ++ out, ?_, ?_, ?_⟩
    · rw [packSamples, packh_some v hv0 hv1, hout]
    · rw [List.length_append, hlen, le16b, List.length_cons]
      simp
      ring
    · intro b hb2
      rcases List.mem_append.mp hb2 with h2 | h2
      · exact le16b_bytes _ b h2
      · exact hb b h2

lemma chunksOf_mem (k : Nat) (hk : 0 < k) : ∀ (l : List Nat),
    ∀ c ∈ chunksOf k l, c ≠ [] ∧ c.length ≤ k ∧ (∀ b ∈ c, b ∈ l) := by
  intro l c hc
  rw [chunksOf] at hc
  by_cases h0 : k = 0 ∨ l = []
  · rw [dif_pos h0] at hc
    simp at hc
  · rw [dif_neg h0] at hc
    push_neg at h0
    rcases List.mem_cons.mp hc with h | h
    · subst h
      refine ⟨?_, ?_, ?_⟩
      · intro hnil
        have hz : (List.take k l).length = 0 := by rw [hnil]; rfl
        rw [List.length_take] at hz
        have hlp := List.length_pos.mpr h0.2
        omega
      · rw [List.length_take]
        omega
      · intro b hb
        exact List.take_subset k l hb
    · have hrec := chunksOf_mem k hk (l.drop k) c h
      exact ⟨hrec.1, hrec.2.1, fun b hb => List.drop_subset k l (hrec.2.2 b hb)⟩
termination_by l => l.length
decreasing_by
  have hk0 : k ≠ 0 ∧ l ≠ [] := by
    push_neg at h0
    exact h0
  have hpos := List.length_pos.mpr hk0.2
  simp only [List.length_drop]
  omega

lemma chunksOf_exact (k : Nat) (hk : 0 < k) : ∀ (m : Nat) (l : List Nat),
    l.length = m * k →
    (∀ c ∈ chunksOf k l, c.length = k) ∧ (chunksOf k l).length = m := by
  intro m
  induction m with
  | zero =>
    intro l hl
    have : l = [] := List.length_eq_zero.mp (by omega)
    subst this
    rw [chunksOf, dif_pos (Or.inr rfl)]
    simp
  | succ m ih =>
    intro l hl
    have hlk : k ≤ l.length := by
      rw [hl]
      calc k = 1 * k := by ring
        _ ≤ (m + 1) * k := by
          apply Nat.mul_le_mul_right
          omega
    have hlne : l ≠ [] := by
      intro hnil
      rw [hnil] at hlk
      simp at hlk
      omega
    rw [chunksOf, dif_neg (by simp [hlne]; omega)]
    have hdl : (l.drop k).length = m * k := by
      rw [List.length_drop, hl]
      ring_nf
      omega
    obtain ⟨hall, hcount⟩ := ih (l.drop k) hdl
    constructor
    · intro c hc
      rcases List.mem_cons.mp hc with h | h
      · subst h
        rw [List.length_take]
        omega
      · exact hall c h
    · rw [List.length_cons, hcount]

lemma fdiv256_bounds (s : Int) (h0 : -8388608 ≤ s) (h1 : s < 8388608) :
    -32768 ≤ s.fdiv 256 ∧ s.fdiv 256 ≤ 32767 := by
  rw [Int.fdiv_eq_ediv s (by norm_num)]
  omega

lemma fdiv65536_bounds (s : Int) (h0 : -2147483648 ≤ s) (h1 : s < 2147483648) :
    -32768 ≤ s.fdiv 65536 ∧ s.fdiv 65536 ≤ 32767 := by
  rw [Int.fdiv_eq_ediv s (by norm_num)]
  omega

lemma signedLE_le3 (bs : List Nat) (h : ∀ b ∈ bs, b < 256) (hne : bs ≠ [])
    (hlen : bs.length ≤ 3) : -8388608 ≤ signedLE bs ∧ signedLE bs < 8388608 := by
  have hb := signedLE_bounds bs h hne
  have hm : (2 : Int) ^ (8 * bs.length - 1) ≤ 8388608 := by
    calc (2 : Int) ^ (8 * bs.length - 1) ≤ 2 ^ 23 :=
      pow_le_pow_right (by norm_num) (by omega)
      _ = 8388608 := by norm_num
  constructor
  · linarith [hb.1]
  · linarith [hb.2]

lemma signedLE_len4 (bs : List Nat) (h : ∀ b ∈ bs, b < 256) (hlen : bs.length = 4) :
    -2147483648 ≤ signedLE bs ∧ signedLE bs < 2147483648 := by
  have hne : bs ≠ [] := by
    intro hnil
    rw [hnil] at hlen
    simp at hlen
  have hb := signedLE_bounds bs h hne
  rw [hlen] at hb
  norm_num at hb
  exact hb

lemma convertDepth_some (sampwidth : Nat) (frames : List Nat)
    (hsw : sampwidth = 1 ∨ sampwidth = 3 ∨ sampwidth = 4)
    (hb : ∀ b ∈ frames, b < 256)
    (h4 : sampwidth = 4 → frames.length % 4 = 0) :
    (convertDepth sampwidth frames).isSome := by
  rcases hsw with h | h | h <;> subst h
  · rw [convertDepth, if_pos rfl]
    obtain ⟨out, hout, -, -⟩ := packSamples_some (frames.map fun s : Nat => ((s : Int) - 128) * 256)
      (by
        intro v hv
        obtain ⟨s, hs, hvs⟩ := List.mem_map.mp hv
        have hs256 := hb s hs
        subst hvs
        constructor <;> nlinarith)
    rw [hout]
    rfl
  · rw [convertDepth, if_neg (by norm_num), if_pos rfl]
    obtain ⟨out, hout, -, -⟩ := packSamples_some
      ((chunksOf 3 frames).map fun bs => (signedLE bs).fdiv 256)
      (by
        intro v hv
        obtain ⟨bs, hbs, hvs⟩ := List.mem_map.mp hv
        obtain ⟨hne, hle, hmem⟩ := chunksOf_mem 3 (by norm_num) frames bs hbs
        have hr := signedLE_le3 bs (fun x hx => hb x (hmem x hx)) hne hle
        subst hvs
        have hd := fdiv256_bounds (signedLE bs) hr.1 hr.2
        omega)
    rw [hout]
    rfl
  · rw [convertDepth, if_neg (by norm_num), if_neg (by norm_num),
      if_pos rfl, if_pos (h4 rfl)]
    have hm4 : frames.length = (frames.length / 4) * 4 := by omega
    obtain ⟨hall, -⟩ := chunksOf_exact 4 (by norm_num) (frames.length / 4) frames hm4
    obtain ⟨out, hout, -, -⟩ := packSamples_some
      ((chunksOf 4 frames).map fun bs => (signedLE bs).fdiv 65536)
      (by
        intro v hv
        obtain ⟨bs, hbs, hvs⟩ := List.mem_map.mp hv
        obtain ⟨hne, hle, hmem⟩ := chunksOf_mem 4 (by norm_num) frames bs hbs
        have hr := signedLE_len4 bs (fun x hx => hb x (hmem x hx)) (hall bs hbs)
        subst hvs
        have hd := fdiv65536_bounds (signedLE bs) hr.1 hr.2
        omega)
    rw [hout]
    rfl

/-- C10: the bit-depth conversions stay inside the signed 16-bit range
    for every possible input sample — 8-bit unsigned s maps to
    (s - 128) * 256 in [-32768, 32512], 24-bit signed s maps to
    s // 256 in [-32768, 32767], 32-bit signed s maps to s // 65536 in
    [-32768, 32767] — so the 16-bit repacking in convertDepth never
    fails with a range error. -/
theorem conversion_range_safe :
    (∀ s : Nat, s < 256 →
      -32768 ≤ ((s : Int) - 128) * 256 ∧ ((s : Int) - 128) * 256 ≤ 32512) ∧
    (∀ s : Int, -8388608 ≤ s → s < 8388608 →
      -32768 ≤ s.fdiv 256 ∧ s.fdiv 256 ≤ 32767) ∧
    (∀ s : Int, -2147483648 ≤ s → s < 2147483648 →
      -32768 ≤ s.fdiv 65536 ∧ s.fdiv 65536 ≤ 32767) ∧
    (∀ (sampwidth : Nat) (frames : List Nat),
      (sampwidth = 1 ∨ sampwidth = 3 ∨ sampwidth = 4) →
      (∀ b ∈ frames, b < 256) → (sampwidth = 4 → frames.length % 4 = 0) →
      (convertDepth sampwidth frames).isSome) := by
  refine ⟨?_, fdiv256_bounds, fdiv65536_bounds, convertDepth_some⟩
  intro s hs
  constructor <;> nlinarith

/-- C10 witness: the extreme 8-bit inputs and a 24-bit conversion. -/
theorem conversion_range_safe_witness :
    (-32768 ≤ (((0 : Nat) : Int) - 128) * 256 ∧
      (((0 : Nat) : Int) - 128) * 256 ≤ 32512) ∧
    (-32768 ≤ (-8388608 : Int).fdiv 256 ∧ (-8388608 : Int).fdiv 256 ≤ 32767) ∧
    (convertDepth 3 [255, 255, 255]).isSome :=
  ⟨conversion_range_safe.1 0 (by norm_num),
   conversion_range_safe.2.1 (-8388608) (by norm_num) (by norm_num),
   conversion_range_safe.2.2.2 3 [255, 255, 255] (by norm_num) (by decide)
     (by omega)⟩

end I2S

namespace I2S

/-! Claim C8: round trip from convert_to_stereo_16bit into
    parse_wav_header. -/

lemma le32v_le32 (x : Nat) (h : x < 4294967296) :
    le32v (x % 256) (x / 256 % 256) (x / 65536 % 256) (x / 16777216 % 256) = x := by
  rw [le32v]
  omega

lemma dup_flatten_length (l : List Int) :
    ((l.map fun s => [s, s]).flatten).length = 2 * l.length := by
  induction l with
  | nil => rfl
  | cons a t ih =>
    simp only [List.map_cons, List.flatten_cons, List.length_append, ih,
      List.length_cons]
    simp
    omega

lemma dup_flatten_mem (l : List Int) (v : Int)
    (hv : v ∈ (l.map fun s => [s, s]).flatten) : v ∈ l := by
  rw [List.mem_flatten] at hv
  obtain ⟨li, hli, hvli⟩ := hv
  obtain ⟨s, hs, hsl⟩ := List.mem_map.mp hli
  subst hsl
  simp at hvli
  subst hvli
  exact hs

lemma convertDepth_exact (sampwidth : Nat) (frames : List Nat) (m : Nat)
    (hsw : sampwidth = 1 ∨ sampwidth = 2 ∨ sampwidth = 3 ∨ sampwidth = 4)
    (hlen : frames.length = m * sampwidth)
    (hb : ∀ b ∈ frames, b < 256) :
    ∃ f1, convertDepth sampwidth frames = some f1 ∧ f1.length = 2 * m ∧
      ∀ b ∈ f1, b < 256 := by
  rcases hsw with h | h | h | h <;> subst h
  · obtain ⟨out, hout, holen, hob⟩ := packSamples_some
      (frames.map fun s : Nat => ((s : Int) - 128) * 256)
      (by
        intro v hv
        obtain ⟨s, hs, hvs⟩ := List.mem_map.mp hv
        have hs256 := hb s hs
        subst hvs
        constructor <;> nlinarith)
    refine ⟨out, ?_, ?_, hob⟩
    · rw [convertDepth, if_pos rfl, hout]
    · rw [holen, List.length_map, hlen]
      ring
  · refine ⟨frames, ?_, ?_, hb⟩
    · rw [convertDepth, if_neg (by norm_num), if_neg (by norm_num),
        if_neg (by norm_num)]
    · rw [hlen]
      ring
  · obtain ⟨hall, hcount⟩ := chunksOf_exact 3 (by norm_num) m frames hlen
    obtain ⟨out, hout, holen, hob⟩ := packSamples_some
      ((chunksOf 3 frames).map fun bs => (signedLE bs).fdiv 256)
      (by
        intro v hv
        obtain ⟨bs, hbs, hvs⟩ := List.mem_map.mp hv
        obtain ⟨hne, hle, hmem⟩ := chunksOf_mem 3 (by norm_num) frames bs hbs
        have hr := signedLE_le3 bs (fun x hx => hb x (hmem x hx)) hne hle
        subst hvs
        have hd := fdiv256_bounds (signedLE bs) hr.1 hr.2
        omega)
    refine ⟨out, ?_, ?_, hob⟩
    · rw [convertDepth, if_neg (by norm_num), if_pos rfl, hout]
    · rw [holen, List.length_map, hcount]
  · obtain ⟨hall, hcount⟩ := chunksOf_exact 4 (by norm_num) m frames hlen
    obtain ⟨out, hout, holen, hob⟩ := packSamples_some
      ((chunksOf 4 frames).map fun bs => (signedLE bs).fdiv 65536)
      (by
        intro v hv
        obtain ⟨bs, hbs, hvs⟩ := List.mem_map.mp hv
        obtain ⟨hne, hle, hmem⟩ := chunksOf_mem 4 (by norm_num) frames bs hbs
        have hr := signedLE_len4 bs (fun x hx => hb x (hmem x hx)) (hall bs hbs)
        subst hvs
        have hd := fdiv65536_bounds (signedLE bs) hr.1 hr.2
        omega)
    refine ⟨out, ?_, ?_, hob⟩
    · rw [convertDepth, if_neg (by norm_num), if_neg (by norm_num), if_pos rfl,
        if_pos (by rw [hlen]; omega), hout]
    · rw [holen, List.length_map, hcount]

lemma monoToStereo_exact (frames1 : List Nat) (m : Nat)
    (hlen : frames1.length = 2 * m) (hb : ∀ b ∈ frames1, b < 256) :
    ∃ f2, monoToStereo frames1 = some f2 ∧ f2.length = 4 * m ∧
      ∀ b ∈ f2, b < 256 := by
  obtain ⟨hall, hcount⟩ := chunksOf_exact 2 (by norm_num) m frames1 (by omega)
  obtain ⟨out, hout, holen, hob⟩ := packSamples_some
    ((((chunksOf 2 frames1).map fun bs => signedLE bs).map fun s => [s, s]).flatten)
    (by
      intro v hv
      have hvm := dup_flatten_mem _ v hv
      obtain ⟨bs, hbs, hvs⟩ := List.mem_map.mp hvm
      obtain ⟨hne, hle, hmem⟩ := chunksOf_mem 2 (by norm_num) frames1 bs hbs
      have hr := signedLE_bounds bs (fun x hx => hb x (hmem x hx)) hne
      rw [hall bs hbs] at hr
      norm_num at hr
      subst hvs
      omega)
  refine ⟨out, ?_, ?_, hob⟩
  · rw [monoToStereo, if_pos (by omega), hout]
  · rw [holen, dup_flatten_length, List.length_map, hcount]
    ring

end I2S

namespace I2S

/-- C8 counterexample: a readable 16-bit stereo WAV with sample rate
    2^30 and no frames.  convert_to_stereo_16bit fails on it — the
    byte-rate field framerate * channels * 2 = 2^32 does not fit
    struct.pack format <I (src/ps.py line 85) — so no output exists for
    parse_wav_header to accept, falsifying the claim as stated. -/
theorem convert_roundtrip_counterexample :
    convert_to_stereo_16bit 2 2 1073741824 [] = none ∧
    ¬ ∃ out, convert_to_stereo_16bit 2 2 1073741824 [] = some out ∧
        parse_wav_header out = .ok ⟨1, 2, 1073741824, 16⟩ := by
  constructor
  · rfl
  · rintro ⟨out, hout, -⟩
    rw [show convert_to_stereo_16bit 2 2 1073741824 [] = none from rfl] at hout
    exact absurd hout (by simp)

/-- C8 (amended): for every readable WAV input — bit depth 8, 16, 24
    or 32 (sample width 1, 2, 3 or 4 bytes), mono or stereo, n frames —
    whose computed output header fields fit the 32-bit pack formats
    (framerate * 4 < 2^32 for the byte-rate field, 36 + 4n < 2^32 for
    the RIFF size), convert_to_stereo_16bit succeeds, parse_wav_header
    applied to its output returns exactly PCM format 1, 2 channels, the
    input's sample rate and 16 bits, and the output's data chunk is
    4 * n bytes, a multiple of 4.  Outside those bounds struct.pack
    raises struct.error and no output is produced. -/
theorem convert_parse_roundtrip (channels sampwidth framerate : Nat)
    (frames : List Nat) (n : Nat)
    (hch : channels = 1 ∨ channels = 2)
    (hsw : sampwidth = 1 ∨ sampwidth = 2 ∨ sampwidth = 3 ∨ sampwidth = 4)
    (hlen : frames.length = n * channels * sampwidth)
    (hbytes : ∀ b ∈ frames, b < 256)
    (hfr : framerate * 4 < 4294967296)
    (hsize : 36 + 4 * n < 4294967296) :
    ∃ out : List Nat,
      convert_to_stereo_16bit channels sampwidth framerate frames = some out ∧
      parse_wav_header out = .ok ⟨1, 2, framerate, 16⟩ ∧
      out.length = 44 + 4 * n := by
  obtain ⟨f1, hf1, hf1len, hf1b⟩ := convertDepth_exact sampwidth frames
    (n * channels) hsw (by rw [hlen]; try ring) hbytes
  obtain ⟨p1, hp1, hp1len, hp1b⟩ :
      ∃ p1, (if channels = 1 then (monoToStereo f1).map fun f => (f, 2)
        else some (f1, channels)) = some (p1, (2 : Nat)) ∧
        p1.length = 4 * n ∧ ∀ b ∈ p1, b < 256 := by
    rcases hch with hch | hch
    · rw [if_pos hch]
      have hf1n : f1.length = 2 * n := by rw [hf1len, hch]; try ring
      obtain ⟨f2, hf2, hf2len, hf2b⟩ := monoToStereo_exact f1 n hf1n hf1b
      exact ⟨f2, by rw [hf2]; rfl, hf2len, hf2b⟩
    · rw [if_neg (by omega)]
      refine ⟨f1, by rw [hch], ?_, hf1b⟩
      rw [hf1len, hch]
      ring
  have e1 : packI (36 + p1.length) = some (le32 (36 + p1.length)) := by
    rw [packI, if_pos (by rw [hp1len]; omega)]
  have e2 : packI 16 = some (le32 16) := by
    rw [packI, if_pos (by norm_num)]
  have e3 : packHu 1 = some (le16b 1) := by
    rw [packHu, if_pos (by norm_num)]
  have e4 : packHu 2 = some (le16b 2) := by
    rw [packHu, if_pos (by norm_num)]
  have e5 : packI framerate = some (le32 framerate) := by
    rw [packI, if_pos (by omega)]
  have e6 : packI (framerate * 2 * 2) = some (le32 (framerate * 2 * 2)) := by
    rw [packI, if_pos (by omega)]
  have e7 : packHu (2 * 2) = some (le16b (2 * 2)) := by
    rw [packHu, if_pos (by norm_num)]
  have e8 : packHu 16 = some (le16b 16) := by
    rw [packHu, if_pos (by norm_num)]
  have e9 : packI p1.length = some (le32 p1.length) := by
    rw [packI, if_pos (by rw [hp1len]; omega)]
  rw [convert_to_stereo_16bit, hf1]
  dsimp only
  rw [hp1]
  dsimp only
  rw [e1, e2, e3, e4, e5, e6, e7, e8, e9]
  dsimp only
  refine ⟨_, rfl, ?_, ?_⟩
  · set PL := le16b 1 ++ (le16b 2 ++ (le32 framerate ++ (le32 (framerate * 2 * 2) ++
      (le16b (2 * 2) ++ le16b 16)))) with hPLdef
    have hPL : PL.length = 16 := by
      simp [hPLdef, le16b, le32]
    have eassoc : riffId ++ le32 (36 + p1.length) ++ waveId ++ fmtId ++ le32 16 ++
        le16b 1 ++ le16b 2 ++ le32 framerate ++ le32 (framerate * 2 * 2) ++
        le16b (2 * 2) ++ le16b 16 ++ dataId ++ le32 p1.length ++ p1 =
        riffId ++ (le32 (36 + p1.length) ++ (waveId ++ (chunksBytes [] ++
          (fmtId ++ (le32 PL.length ++ (PL ++ (dataId ++
            (le32 p1.length ++ p1)))))))) := by
      rw [hPL, hPLdef, show chunksBytes [] = [] from rfl]
      simp [List.append_assoc]
    rw [eassoc, parse_header_ok (le32 (36 + p1.length)) (le32_length _) [] PL
      (dataId ++ (le32 p1.length ++ p1)) (by simp)
      (by rw [hPL]) (by rw [hPL]; norm_num)]
    have hPLexp : PL = 1 :: 0 :: 2 :: 0 :: (framerate % 256) ::
        (framerate / 256 % 256) :: (framerate / 65536 % 256) ::
        (framerate / 16777216 % 256) :: ((framerate * 2 * 2) % 256) ::
        ((framerate * 2 * 2) / 256 % 256) :: ((framerate * 2 * 2) / 65536 % 256) ::
        ((framerate * 2 * 2) / 16777216 % 256) :: 4 :: 0 :: 16 :: 0 :: [] := by
      rw [hPLdef]
      norm_num [le16b, le32]
    rw [hPLexp]
    simp only [List.getD_cons_zero, List.getD_cons_succ]
    rw [le32v_le32 framerate (by omega)]
    norm_num [le16]
  · simp only [List.length_append, hp1len]
    simp [riffId, waveId, fmtId, dataId, le32, le16b]
    try omega

/-- C8 witness: a 16-bit stereo input of one frame at 44100 Hz. -/
theorem convert_parse_roundtrip_witness :
    ∃ out : List Nat,
      convert_to_stereo_16bit 2 2 44100 [1, 0, 2, 0] = some out ∧
      parse_wav_header out = .ok ⟨1, 2, 44100, 16⟩ ∧
      out.length = 44 + 4 * 1 :=
  convert_parse_roundtrip 2 2 44100 [1, 0, 2, 0] 1 (by norm_num) (by norm_num)
    (by decide) (by decide) (by norm_num) (by norm_num)

end I2S
